import Mathlib

/-!
# Verification of the libbitcoin unicode boundary codec and adapters

Shallow embedding of the code in `include/bitcoin/system/unicode/unicode.hpp`
and `include/bitcoin/bitcoin/impl/math/hash.ipp`.

Narrow buffers are lists of 8-bit code units (`List Nat`, each < 256 on valid
data); wide buffers are lists of 16-bit code units.  The repository ships only
the declarations of the codec functions (`to_utf8`, `to_utf16`,
`allocate_environment`); their bodies are modelled from the specification, as
marked on each definition.  The `scrypt` wrapper and the
`BC_USE_LIBBITCOIN_MAIN` entry-point body are embedded from the source.
-/

set_option maxHeartbeats 1600000
set_option maxRecDepth 4096

/-- Error taxonomy of the codec (spec section 7). -/
inductive ConvError where
  | capacityExceeded
  | malformedSequence
deriving DecidableEq, Repr

/-- Encode one code point as UTF-16 code units (single unit below 0x10000,
surrogate pair above). -/
def encodeUtf16 (cp : Nat) : List Nat :=
  if cp < 0x10000 then [cp]
  else [0xD800 + (cp - 0x10000) / 0x400, 0xDC00 + (cp - 0x10000) % 0x400]

/-- Encode one code point as UTF-8 bytes (1 to 4 bytes). -/
def encodeUtf8 (cp : Nat) : List Nat :=
  if cp < 0x80 then [cp]
  else if cp < 0x800 then [0xC0 + cp / 0x40, 0x80 + cp % 0x40]
  else if cp < 0x10000 then
    [0xE0 + cp / 0x1000, 0x80 + cp / 0x40 % 0x40, 0x80 + cp % 0x40]
  else
    [0xF0 + cp / 0x40000, 0x80 + cp / 0x1000 % 0x40, 0x80 + cp / 0x40 % 0x40,
      0x80 + cp % 0x40]

/-- Declared length of a UTF-8 sequence from its lead byte; `none` for a byte
that cannot start a sequence (a continuation byte or 0xF8..). -/
def utf8SeqLen (b : Nat) : Option Nat :=
  if b < 0x80 then some 1
  else if b < 0xC0 then none
  else if b < 0xE0 then some 2
  else if b < 0xF0 then some 3
  else if b < 0xF8 then some 4
  else none

/-- A byte that can only appear as a UTF-8 continuation byte. -/
def IsCont (b : Nat) : Prop := 0x80 ≤ b ∧ b < 0xC0

instance : DecidablePred IsCont := fun b =>
  inferInstanceAs (Decidable (0x80 ≤ b ∧ b < 0xC0))

/-- Reassemble the code point of one complete UTF-8 sequence (the bytes of one
2-, 3- or 4-byte sequence). -/
def decodeSeq : List Nat → Nat
  | [b1, b2] => (b1 - 0xC0) * 0x40 + (b2 - 0x80)
  | [b1, b2, b3] => (b1 - 0xE0) * 0x1000 + (b2 - 0x80) * 0x40 + (b3 - 0x80)
  | [b1, b2, b3, b4] =>
    (b1 - 0xF0) * 0x40000 + (b2 - 0x80) * 0x1000 + (b3 - 0x80) * 0x40 + (b4 - 0x80)
  | _ => 0

/-- Modelled from the spec: scanning loop of the chunked narrow-to-wide
conversion `to_utf16(out, out_chars, in, in_bytes, truncated)` (declared in
unicode.hpp, body not in the excerpt; spec section 4.1).  The scan consumes
one byte per step: `pend` holds the bytes of the multi-byte sequence in
progress and `need` its declared total length (`0` when no sequence is open).
Completed code points are appended to `acc` as UTF-16 units while they fit in
`cap`; at the end of the input the bytes still pending are the truncation
count. -/
def utf16Scan (cap : Nat) (acc pend : List Nat) (need : Nat) :
    List Nat → Except ConvError (List Nat × Nat)
  | [] => .ok (acc, pend.length)
  | b :: r =>
    if need = 0 then
      if b < 0x80 then
        if acc.length + 1 ≤ cap then utf16Scan cap (acc ++ [b]) [] 0 r
        else .error .capacityExceeded
      else if b < 0xC0 then .error .malformedSequence
      else if b < 0xE0 then utf16Scan cap acc [b] 2 r
      else if b < 0xF0 then utf16Scan cap acc [b] 3 r
      else if b < 0xF8 then utf16Scan cap acc [b] 4 r
      else .error .malformedSequence
    else
      if IsCont b then
        if pend.length + 1 = need then
          let us := encodeUtf16 (decodeSeq (pend ++ [b]))
          if acc.length + us.length ≤ cap then utf16Scan cap (acc ++ us) [] 0 r
          else .error .capacityExceeded
        else utf16Scan cap acc (pend ++ [b]) need r
      else .error .malformedSequence

/-- Modelled from the spec: the chunked (bounded-buffer) narrow-to-wide
conversion `to_utf16(wchar_t out[], size_t out_chars, const char in[], size_t
in_bytes, uint8_t truncated)`.  Returns the wide units written together with
the truncation count, or an error. -/
def to_utf16_array (out_chars : Nat) (input : List Nat) :
    Except ConvError (List Nat × Nat) :=
  utf16Scan out_chars [] [] 0 input

/-- Modelled from the spec: scanning loop of the bounded wide-to-narrow
conversion `to_utf8(out, out_bytes, in, in_chars)` (declared in unicode.hpp,
body not in the excerpt; spec section 4.2).  `pendHi` holds a high surrogate
waiting for its partner; an unpaired surrogate is a malformed-sequence error,
never a truncation. -/
def utf8Scan (cap : Nat) (acc : List Nat) (pendHi : Option Nat) :
    List Nat → Except ConvError (List Nat)
  | [] =>
    match pendHi with
    | none => .ok acc
    | some _ => .error .malformedSequence
  | u :: r =>
    match pendHi with
    | none =>
      if u < 0xD800 ∨ 0xE000 ≤ u then
        let bs := encodeUtf8 u
        if acc.length + bs.length ≤ cap then utf8Scan cap (acc ++ bs) none r
        else .error .capacityExceeded
      else if u < 0xDC00 then utf8Scan cap acc (some u) r
      else .error .malformedSequence
    | some hi =>
      if 0xDC00 ≤ u ∧ u < 0xE000 then
        let bs := encodeUtf8 (0x10000 + (hi - 0xD800) * 0x400 + (u - 0xDC00))
        if acc.length + bs.length ≤ cap then utf8Scan cap (acc ++ bs) none r
        else .error .capacityExceeded
      else .error .malformedSequence

/-- Modelled from the spec: the chunked (bounded-buffer) wide-to-narrow
conversion `to_utf8(char out[], size_t out_bytes, const wchar_t in[], size_t
in_chars)`. -/
def to_utf8_array (out_bytes : Nat) (input : List Nat) :
    Except ConvError (List Nat) :=
  utf8Scan out_bytes [] none input

/-- Modelled from the spec: the whole-string conversion `std::wstring
to_utf16(const std::string)` (spec section 4.3): run the chunked conversion
with capacity equal to the maximal possible expansion (one wide unit per
input byte); a nonzero truncation count - an incomplete trailing sequence -
is a decode error for the whole operation. -/
def to_utf16_string (narrow : List Nat) : Except ConvError (List Nat) :=
  match to_utf16_array narrow.length narrow with
  | .ok (w, 0) => .ok w
  | .ok _ => .error .malformedSequence
  | .error e => .error e

/-- Modelled from the spec: the whole-string conversion `std::string
to_utf8(const std::wstring)` (spec section 4.3): run the chunked conversion
with capacity equal to the maximal possible expansion (three bytes per input
wide unit). -/
def to_utf8_string (wide : List Nat) : Except ConvError (List Nat) :=
  to_utf8_array (3 * wide.length) wide

/-- A Unicode scalar value: in range and not a surrogate. -/
def ValidScalar (cp : Nat) : Prop :=
  cp < 0x110000 ∧ (cp < 0xD800 ∨ 0xE000 ≤ cp)

instance : DecidablePred ValidScalar := fun cp =>
  inferInstanceAs (Decidable (cp < 0x110000 ∧ (cp < 0xD800 ∨ 0xE000 ≤ cp)))

/-- The UTF-8 byte stream encoding a list of code points. -/
def utf8Of (cps : List Nat) : List Nat :=
  (cps.map encodeUtf8).flatten

/-- The UTF-16 unit stream encoding a list of code points. -/
def utf16Of (cps : List Nat) : List Nat :=
  (cps.map encodeUtf16).flatten

/-- A valid narrow byte stream: the UTF-8 encoding of some list of scalar
values. -/
def ValidNarrow (s : List Nat) : Prop :=
  ∃ cps, (∀ cp ∈ cps, ValidScalar cp) ∧ s = utf8Of cps

/-- A valid wide stream: the UTF-16 encoding of some list of scalar values. -/
def ValidWide (w : List Nat) : Prop :=
  ∃ cps, (∀ cp ∈ cps, ValidScalar cp) ∧ w = utf16Of cps

@[simp] theorem utf8Of_nil : utf8Of [] = [] := rfl

@[simp] theorem utf8Of_cons (cp : Nat) (cps : List Nat) :
    utf8Of (cp :: cps) = encodeUtf8 cp ++ utf8Of cps := by
  simp [utf8Of]

@[simp] theorem utf16Of_nil : utf16Of [] = [] := rfl

@[simp] theorem utf16Of_cons (cp : Nat) (cps : List Nat) :
    utf16Of (cp :: cps) = encodeUtf16 cp ++ utf16Of cps := by
  simp [utf16Of]

theorem utf8Of_append (a b : List Nat) :
    utf8Of (a ++ b) = utf8Of a ++ utf8Of b := by
  simp [utf8Of]

theorem utf16Of_append (a b : List Nat) :
    utf16Of (a ++ b) = utf16Of a ++ utf16Of b := by
  simp [utf16Of]

example : to_utf16_array 3 [0xE2, 0x82, 0xAC] = .ok ([0x20AC], 0) := rfl

example : to_utf16_array 3 [0xE2, 0x82] = .ok ([], 2) := rfl

example : to_utf8_array 9 [0x20AC] = .ok ([0xE2, 0x82, 0xAC]) := rfl

example : to_utf8_string [0xD800] = .error .malformedSequence := rfl

example : to_utf16_string [0xF0, 0x9F, 0x98, 0x80] = .ok ([0xD83D, 0xDE00]) :=
  rfl

theorem encodeUtf16_bmp {cp : Nat} (h : cp < 0x10000) : encodeUtf16 cp = [cp] := by
  rw [encodeUtf16, if_pos h]

theorem encodeUtf16_astral {cp : Nat} (h : 0x10000 ≤ cp) :
    encodeUtf16 cp = [0xD800 + (cp - 0x10000) / 0x400, 0xDC00 + (cp - 0x10000) % 0x400] := by
  rw [encodeUtf16, if_neg (by omega)]

theorem encodeUtf16_length_pos (cp : Nat) : 0 < (encodeUtf16 cp).length := by
  rw [encodeUtf16]
  split <;> simp

theorem encodeUtf8_length_pos (cp : Nat) : 0 < (encodeUtf8 cp).length := by
  rw [encodeUtf8]
  split_ifs <;> simp

theorem encodeUtf16_le_encodeUtf8 (cp : Nat) :
    (encodeUtf16 cp).length ≤ (encodeUtf8 cp).length := by
  rw [encodeUtf16, encodeUtf8]
  split_ifs <;> simp only [List.length_cons, List.length_nil] <;> omega

theorem encodeUtf8_le_three_mul (cp : Nat) :
    (encodeUtf8 cp).length ≤ 3 * (encodeUtf16 cp).length := by
  rw [encodeUtf16, encodeUtf8]
  split_ifs <;> simp only [List.length_cons, List.length_nil] <;> omega

theorem utf16Of_length_le (cps : List Nat) :
    (utf16Of cps).length ≤ (utf8Of cps).length := by
  induction cps with
  | nil => simp
  | cons cp rest ih =>
    simp only [utf16Of_cons, utf8Of_cons, List.length_append]
    have := encodeUtf16_le_encodeUtf8 cp
    omega

theorem utf8Of_length_le (cps : List Nat) :
    (utf8Of cps).length ≤ 3 * (utf16Of cps).length := by
  induction cps with
  | nil => simp
  | cons cp rest ih =>
    simp only [utf16Of_cons, utf8Of_cons, List.length_append]
    have := encodeUtf8_le_three_mul cp
    omega

theorem utf16Scan_nil (cap : Nat) (acc pend : List Nat) (need : Nat) :
    utf16Scan cap acc pend need [] = .ok (acc, pend.length) := by
  rw [utf16Scan]

theorem utf16Scan_ascii {b : Nat} (h : b < 0x80) (cap : Nat) (acc r : List Nat) :
    utf16Scan cap acc [] 0 (b :: r) =
      if acc.length + 1 ≤ cap then utf16Scan cap (acc ++ [b]) [] 0 r
      else .error .capacityExceeded := by
  rw [utf16Scan, if_pos rfl, if_pos h]

theorem utf16Scan_lead2 {b : Nat} (h1 : 0xC0 ≤ b) (h2 : b < 0xE0) (cap : Nat)
    (acc r : List Nat) :
    utf16Scan cap acc [] 0 (b :: r) = utf16Scan cap acc [b] 2 r := by
  rw [utf16Scan, if_pos rfl, if_neg (by omega), if_neg (by omega), if_pos h2]

theorem utf16Scan_lead3 {b : Nat} (h1 : 0xE0 ≤ b) (h2 : b < 0xF0) (cap : Nat)
    (acc r : List Nat) :
    utf16Scan cap acc [] 0 (b :: r) = utf16Scan cap acc [b] 3 r := by
  rw [utf16Scan, if_pos rfl, if_neg (by omega), if_neg (by omega), if_neg (by omega),
    if_pos h2]

theorem utf16Scan_lead4 {b : Nat} (h1 : 0xF0 ≤ b) (h2 : b < 0xF8) (cap : Nat)
    (acc r : List Nat) :
    utf16Scan cap acc [] 0 (b :: r) = utf16Scan cap acc [b] 4 r := by
  rw [utf16Scan, if_pos rfl, if_neg (by omega), if_neg (by omega), if_neg (by omega),
    if_neg (by omega), if_pos h2]

theorem utf16Scan_contFin {b need : Nat} {pend : List Nat} (hn : need ≠ 0)
    (hc : IsCont b) (hl : pend.length + 1 = need) (cap : Nat) (acc r : List Nat) :
    utf16Scan cap acc pend need (b :: r) =
      if acc.length + (encodeUtf16 (decodeSeq (pend ++ [b]))).length ≤ cap then
        utf16Scan cap (acc ++ encodeUtf16 (decodeSeq (pend ++ [b]))) [] 0 r
      else .error .capacityExceeded := by
  rw [utf16Scan, if_neg hn, if_pos hc, if_pos hl]

theorem utf16Scan_contMid {b need : Nat} {pend : List Nat} (hn : need ≠ 0)
    (hc : IsCont b) (hl : pend.length + 1 ≠ need) (cap : Nat) (acc r : List Nat) :
    utf16Scan cap acc pend need (b :: r) = utf16Scan cap acc (pend ++ [b]) need r := by
  rw [utf16Scan, if_neg hn, if_pos hc, if_neg hl]

theorem utf16Scan_contBad {b need : Nat} {pend : List Nat} (hn : need ≠ 0)
    (hc : ¬ IsCont b) (cap : Nat) (acc r : List Nat) :
    utf16Scan cap acc pend need (b :: r) = .error .malformedSequence := by
  rw [utf16Scan, if_neg hn, if_neg hc]

theorem utf16Scan_leadCont {b : Nat} (h1 : 0x80 ≤ b) (h2 : b < 0xC0) (cap : Nat)
    (acc r : List Nat) :
    utf16Scan cap acc [] 0 (b :: r) = .error .malformedSequence := by
  rw [utf16Scan, if_pos rfl, if_neg (by omega), if_pos h2]

theorem utf16Scan_leadHigh {b : Nat} (h : 0xF8 ≤ b) (cap : Nat) (acc r : List Nat) :
    utf16Scan cap acc [] 0 (b :: r) = .error .malformedSequence := by
  rw [utf16Scan, if_pos rfl, if_neg (by omega), if_neg (by omega), if_neg (by omega),
    if_neg (by omega), if_neg (by omega)]

/-- One decoding step of the chunked narrow-to-wide conversion: presented a
complete UTF-8 sequence for a code point `cp` followed by anything, the scan
decodes exactly that sequence and pushes its UTF-16 units, or fails on
capacity. -/
theorem utf16Scan_step {cp : Nat} (h : cp < 0x110000) (cap : Nat) (acc t : List Nat) :
    utf16Scan cap acc [] 0 (encodeUtf8 cp ++ t) =
      if acc.length + (encodeUtf16 cp).length ≤ cap then
        utf16Scan cap (acc ++ encodeUtf16 cp) [] 0 t
      else .error .capacityExceeded := by
  rcases Nat.lt_or_ge cp 0x80 with h1 | h1
  · have e8 : encodeUtf8 cp = [cp] := by rw [encodeUtf8, if_pos h1]
    have e16 : encodeUtf16 cp = [cp] := encodeUtf16_bmp (by omega)
    rw [e8, e16]
    exact utf16Scan_ascii h1 cap acc t
  · rcases Nat.lt_or_ge cp 0x800 with h2 | h2
    · have e8 : encodeUtf8 cp = [0xC0 + cp / 0x40, 0x80 + cp % 0x40] := by
        rw [encodeUtf8, if_neg (by omega), if_pos h2]
      rw [e8]
      show utf16Scan cap acc [] 0
        ((0xC0 + cp / 0x40) :: (0x80 + cp % 0x40) :: t) = _
      rw [utf16Scan_lead2 (by omega) (by omega),
        utf16Scan_contFin (by omega) (by constructor <;> omega) (by simp)]
      have hd : decodeSeq ([0xC0 + cp / 0x40] ++ [0x80 + cp % 0x40]) = cp := by
        simp only [List.cons_append, List.nil_append, decodeSeq]
        omega
      rw [hd]
    · rcases Nat.lt_or_ge cp 0x10000 with h3 | h3
      · have e8 : encodeUtf8 cp =
            [0xE0 + cp / 0x1000, 0x80 + cp / 0x40 % 0x40, 0x80 + cp % 0x40] := by
          rw [encodeUtf8, if_neg (by omega), if_neg (by omega), if_pos h3]
        rw [e8]
        show utf16Scan cap acc [] 0 ((0xE0 + cp / 0x1000) ::
          (0x80 + cp / 0x40 % 0x40) :: (0x80 + cp % 0x40) :: t) = _
        rw [utf16Scan_lead3 (by omega) (by omega),
          utf16Scan_contMid (by omega) (by constructor <;> omega) (by simp),
          utf16Scan_contFin (by omega) (by constructor <;> omega) (by simp)]
        have hd : decodeSeq ([0xE0 + cp / 0x1000] ++ [0x80 + cp / 0x40 % 0x40] ++
            [0x80 + cp % 0x40]) = cp := by
          simp only [List.cons_append, List.nil_append, decodeSeq]
          omega
        rw [hd]
      · have e8 : encodeUtf8 cp = [0xF0 + cp / 0x40000, 0x80 + cp / 0x1000 % 0x40,
            0x80 + cp / 0x40 % 0x40, 0x80 + cp % 0x40] := by
          rw [encodeUtf8, if_neg (by omega), if_neg (by omega), if_neg (by omega)]
        rw [e8]
        show utf16Scan cap acc [] 0 ((0xF0 + cp / 0x40000) ::
          (0x80 + cp / 0x1000 % 0x40) :: (0x80 + cp / 0x40 % 0x40) ::
          (0x80 + cp % 0x40) :: t) = _
        rw [utf16Scan_lead4 (by omega) (by omega),
          utf16Scan_contMid (by omega) (by constructor <;> omega) (by simp),
          utf16Scan_contMid (by omega) (by constructor <;> omega) (by simp),
          utf16Scan_contFin (by omega) (by constructor <;> omega) (by simp)]
        have hd : decodeSeq ([0xF0 + cp / 0x40000] ++ [0x80 + cp / 0x1000 % 0x40] ++
            [0x80 + cp / 0x40 % 0x40] ++ [0x80 + cp % 0x40]) = cp := by
          simp only [List.cons_append, List.nil_append, decodeSeq]
          omega
        rw [hd]

/-- Consuming a whole valid stream from a clean scanner state transcodes it
and leaves the scanner at the remaining suffix. -/
theorem utf16Scan_consume {cps : List Nat} (hv : ∀ cp ∈ cps, ValidScalar cp)
    {cap : Nat} {acc : List Nat} (hcap : acc.length + (utf16Of cps).length ≤ cap)
    (t : List Nat) :
    utf16Scan cap acc [] 0 (utf8Of cps ++ t) =
      utf16Scan cap (acc ++ utf16Of cps) [] 0 t := by
  induction cps generalizing acc with
  | nil => simp
  | cons cp rest ih =>
    have hcp : cp < 0x110000 := (hv cp (by simp)).1
    rw [utf8Of_cons, List.append_assoc, utf16Scan_step hcp]
    have hfit : acc.length + (encodeUtf16 cp).length ≤ cap := by
      simp only [utf16Of_cons, List.length_append] at hcap
      omega
    rw [if_pos hfit, ih (fun c hc => hv c (by simp [hc]))
      (by simp only [utf16Of_cons, List.length_append] at hcap ⊢; omega)]
    simp [utf16Of_cons]

/-- Running the scanner over exactly one valid stream with sufficient
capacity produces its full UTF-16 image and no truncation. -/
theorem utf16Scan_run {cps : List Nat} (hv : ∀ cp ∈ cps, ValidScalar cp)
    {cap : Nat} {acc : List Nat} (hcap : acc.length + (utf16Of cps).length ≤ cap) :
    utf16Scan cap acc [] 0 (utf8Of cps) = .ok (acc ++ utf16Of cps, 0) := by
  have := utf16Scan_consume hv hcap []
  rw [List.append_nil] at this
  rw [this, utf16Scan_nil]
  rfl

/-- With insufficient capacity for a nonempty valid stream, the scan fails
with a capacity error. -/
theorem utf16Scan_capacity {cps : List Nat} (hv : ∀ cp ∈ cps, ValidScalar cp)
    (hne : cps ≠ []) {cap : Nat} {acc : List Nat}
    (hcap : cap < acc.length + (utf16Of cps).length) :
    utf16Scan cap acc [] 0 (utf8Of cps) = .error .capacityExceeded := by
  induction cps generalizing acc with
  | nil => exact absurd rfl hne
  | cons cp rest ih =>
    have hcp : cp < 0x110000 := (hv cp (by simp)).1
    rw [utf8Of_cons, utf16Scan_step hcp]
    by_cases hfit : acc.length + (encodeUtf16 cp).length ≤ cap
    · rw [if_pos hfit]
      rcases rest with _ | ⟨c2, rest2⟩
      · exfalso
        simp only [utf16Of_cons, utf16Of_nil, List.append_nil, List.length_append] at hcap
        omega
      · exact ih (fun c hc => hv c (by simp [hc])) (by simp)
          (by simp only [utf16Of_cons, List.length_append] at hcap ⊢; omega)
    · rw [if_neg hfit]

/-- A strict prefix of one valid multi-byte sequence is reported back as a
truncation of exactly its own length, with nothing written. -/
theorem utf16Scan_trunc {cp i : Nat} (h : cp < 0x110000)
    (hi : i < (encodeUtf8 cp).length) (cap : Nat) (acc : List Nat) :
    utf16Scan cap acc [] 0 ((encodeUtf8 cp).take i) = .ok (acc, i) := by
  rcases Nat.eq_zero_or_pos i with hz | hpos
  · subst hz
    rw [List.take_zero, utf16Scan_nil]
    rfl
  rcases Nat.lt_or_ge cp 0x80 with h1 | h1
  · rw [encodeUtf8, if_pos h1] at hi
    simp at hi
    omega
  · rcases Nat.lt_or_ge cp 0x800 with h2 | h2
    · rw [encodeUtf8, if_neg (by omega), if_pos h2] at hi ⊢
      simp only [List.length_cons, List.length_nil] at hi
      have : i = 1 := by omega
      subst this
      rw [show ([0xC0 + cp / 0x40, 0x80 + cp % 0x40].take 1) = [0xC0 + cp / 0x40] from rfl,
        utf16Scan_lead2 (by omega) (by omega), utf16Scan_nil]
      rfl
    · rcases Nat.lt_or_ge cp 0x10000 with h3 | h3
      · rw [encodeUtf8, if_neg (by omega), if_neg (by omega), if_pos h3] at hi ⊢
        simp only [List.length_cons, List.length_nil] at hi
        rcases (show i = 1 ∨ i = 2 by omega) with hone | htwo
        · subst hone
          rw [show ([0xE0 + cp / 0x1000, 0x80 + cp / 0x40 % 0x40,
              0x80 + cp % 0x40].take 1) = [0xE0 + cp / 0x1000] from rfl,
            utf16Scan_lead3 (by omega) (by omega), utf16Scan_nil]
          rfl
        · subst htwo
          rw [show ([0xE0 + cp / 0x1000, 0x80 + cp / 0x40 % 0x40,
              0x80 + cp % 0x40].take 2) =
              [0xE0 + cp / 0x1000, 0x80 + cp / 0x40 % 0x40] from rfl,
            utf16Scan_lead3 (by omega) (by omega),
            utf16Scan_contMid (by omega) (by constructor <;> omega) (by simp),
            utf16Scan_nil]
          rfl
      · rw [encodeUtf8, if_neg (by omega), if_neg (by omega), if_neg (by omega)] at hi ⊢
        simp only [List.length_cons, List.length_nil] at hi
        rcases (show i = 1 ∨ i = 2 ∨ i = 3 by omega) with hone | htwo | hthree
        · subst hone
          rw [show ([0xF0 + cp / 0x40000, 0x80 + cp / 0x1000 % 0x40,
              0x80 + cp / 0x40 % 0x40, 0x80 + cp % 0x40].take 1) =
              [0xF0 + cp / 0x40000] from rfl,
            utf16Scan_lead4 (by omega) (by omega), utf16Scan_nil]
          rfl
        · subst htwo
          rw [show ([0xF0 + cp / 0x40000, 0x80 + cp / 0x1000 % 0x40,
              0x80 + cp / 0x40 % 0x40, 0x80 + cp % 0x40].take 2) =
              [0xF0 + cp / 0x40000, 0x80 + cp / 0x1000 % 0x40] from rfl,
            utf16Scan_lead4 (by omega) (by omega),
            utf16Scan_contMid (by omega) (by constructor <;> omega) (by simp),
            utf16Scan_nil]
          rfl
        · subst hthree
          rw [show ([0xF0 + cp / 0x40000, 0x80 + cp / 0x1000 % 0x40,
              0x80 + cp / 0x40 % 0x40, 0x80 + cp % 0x40].take 3) =
              [0xF0 + cp / 0x40000, 0x80 + cp / 0x1000 % 0x40,
                0x80 + cp / 0x40 % 0x40] from rfl,
            utf16Scan_lead4 (by omega) (by omega),
            utf16Scan_contMid (by omega) (by constructor <;> omega) (by simp),
            utf16Scan_contMid (by omega) (by constructor <;> omega) (by simp),
            utf16Scan_nil]
          rfl

/-- The truncation count reported by the scanner never exceeds 3: the pending
sequence always stays strictly shorter than its declared length, which is at
most 4. -/
theorem utf16Scan_trunc_le_three (input : List Nat) :
    ∀ cap : Nat, ∀ acc pend : List Nat, ∀ need : Nat, ∀ w : List Nat, ∀ T : Nat,
    (pend.length < need ∨ (need = 0 ∧ pend = [])) → need ≤ 4 →
    utf16Scan cap acc pend need input = .ok (w, T) → T ≤ 3 := by
  induction input with
  | nil =>
    intro cap acc pend need w T hinv hneed heq
    rw [utf16Scan_nil] at heq
    simp only [Except.ok.injEq, Prod.mk.injEq] at heq
    rcases hinv with hlt | ⟨_, hp⟩
    · omega
    · subst hp
      simp at heq
      omega
  | cons b r ih =>
    intro cap acc pend need w T hinv hneed heq
    by_cases hn : need = 0
    · have hp : pend = [] := by
        rcases hinv with hlt | ⟨_, hp⟩
        · omega
        · exact hp
      subst hn
      subst hp
      by_cases hb1 : b < 0x80
      · rw [utf16Scan_ascii hb1] at heq
        by_cases hfit : acc.length + 1 ≤ cap
        · rw [if_pos hfit] at heq
          exact ih _ _ _ _ _ _ (Or.inr ⟨rfl, rfl⟩) (by omega) heq
        · rw [if_neg hfit] at heq
          simp at heq
      · by_cases hb2 : b < 0xC0
        · rw [utf16Scan_leadCont (by omega) hb2] at heq
          simp at heq
        · by_cases hb3 : b < 0xE0
          · rw [utf16Scan_lead2 (by omega) hb3] at heq
            exact ih _ _ _ _ _ _ (Or.inl (by simp)) (by omega) heq
          · by_cases hb4 : b < 0xF0
            · rw [utf16Scan_lead3 (by omega) hb4] at heq
              exact ih _ _ _ _ _ _ (Or.inl (by simp)) (by omega) heq
            · by_cases hb5 : b < 0xF8
              · rw [utf16Scan_lead4 (by omega) hb5] at heq
                exact ih _ _ _ _ _ _ (Or.inl (by simp)) (by omega) heq
              · rw [utf16Scan_leadHigh (by omega)] at heq
                simp at heq
    · by_cases hc : IsCont b
      · by_cases hl : pend.length + 1 = need
        · rw [utf16Scan_contFin hn hc hl] at heq
          by_cases hfit :
              acc.length + (encodeUtf16 (decodeSeq (pend ++ [b]))).length ≤ cap
          · rw [if_pos hfit] at heq
            exact ih _ _ _ _ _ _ (Or.inr ⟨rfl, rfl⟩) (by omega) heq
          · rw [if_neg hfit] at heq
            simp at heq
        · rw [utf16Scan_contMid hn hc hl] at heq
          have hlt : pend.length < need := by
            rcases hinv with hlt | ⟨hz, _⟩
            · exact hlt
            · omega
          exact ih _ _ _ _ _ _ (Or.inl (by simp; omega)) hneed heq
      · rw [utf16Scan_contBad hn hc] at heq
        simp at heq

theorem utf8Scan_nil_none (cap : Nat) (acc : List Nat) :
    utf8Scan cap acc none [] = .ok acc := by
  rw [utf8Scan]

theorem utf8Scan_nil_some (cap : Nat) (acc : List Nat) (hi : Nat) :
    utf8Scan cap acc (some hi) [] = .error .malformedSequence := by
  rw [utf8Scan]

theorem utf8Scan_single {u : Nat} (h : u < 0xD800 ∨ 0xE000 ≤ u) (cap : Nat)
    (acc r : List Nat) :
    utf8Scan cap acc none (u :: r) =
      if acc.length + (encodeUtf8 u).length ≤ cap then
        utf8Scan cap (acc ++ encodeUtf8 u) none r
      else .error .capacityExceeded := by
  rw [utf8Scan]
  simp only [if_pos h]

theorem utf8Scan_hi {u : Nat} (h1 : 0xD800 ≤ u) (h2 : u < 0xDC00) (cap : Nat)
    (acc r : List Nat) :
    utf8Scan cap acc none (u :: r) = utf8Scan cap acc (some u) r := by
  rw [utf8Scan]
  simp only [if_neg (by omega : ¬ (u < 0xD800 ∨ 0xE000 ≤ u)), if_pos h2]

theorem utf8Scan_loneLo {u : Nat} (h1 : 0xDC00 ≤ u) (h2 : u < 0xE000) (cap : Nat)
    (acc r : List Nat) :
    utf8Scan cap acc none (u :: r) = .error .malformedSequence := by
  rw [utf8Scan]
  simp only [if_neg (by omega : ¬ (u < 0xD800 ∨ 0xE000 ≤ u)),
    if_neg (by omega : ¬ u < 0xDC00)]

theorem utf8Scan_pair {u : Nat} (h : 0xDC00 ≤ u ∧ u < 0xE000) (hi cap : Nat)
    (acc r : List Nat) :
    utf8Scan cap acc (some hi) (u :: r) =
      if acc.length + (encodeUtf8 (0x10000 + (hi - 0xD800) * 0x400 + (u - 0xDC00))).length ≤ cap then
        utf8Scan cap (acc ++ encodeUtf8 (0x10000 + (hi - 0xD800) * 0x400 + (u - 0xDC00)))
          none r
      else .error .capacityExceeded := by
  rw [utf8Scan]
  simp only [if_pos h]

theorem utf8Scan_pairBad {u : Nat} (h : ¬ (0xDC00 ≤ u ∧ u < 0xE000)) (hi cap : Nat)
    (acc r : List Nat) :
    utf8Scan cap acc (some hi) (u :: r) = .error .malformedSequence := by
  rw [utf8Scan]
  simp only [if_neg h]

/-- One decoding step of the wide-to-narrow conversion: presented the UTF-16
units of a scalar value followed by anything, the scan decodes exactly that
scalar and pushes its UTF-8 bytes, or fails on capacity. -/
theorem utf8Scan_step {cp : Nat} (h : ValidScalar cp) (cap : Nat) (acc t : List Nat) :
    utf8Scan cap acc none (encodeUtf16 cp ++ t) =
      if acc.length + (encodeUtf8 cp).length ≤ cap then
        utf8Scan cap (acc ++ encodeUtf8 cp) none t
      else .error .capacityExceeded := by
  obtain ⟨hlt, hsur⟩ := h
  rcases Nat.lt_or_ge cp 0x10000 with hb | hb
  · rw [encodeUtf16_bmp hb]
    exact utf8Scan_single (by omega) cap acc t
  · rw [encodeUtf16_astral hb]
    show utf8Scan cap acc none ((0xD800 + (cp - 0x10000) / 0x400) ::
      (0xDC00 + (cp - 0x10000) % 0x400) :: t) = _
    rw [utf8Scan_hi (by omega) (by omega), utf8Scan_pair (by omega)]
    have harg : 0x10000 + (0xD800 + (cp - 0x10000) / 0x400 - 0xD800) * 0x400 +
        (0xDC00 + (cp - 0x10000) % 0x400 - 0xDC00) = cp := by
      omega
    rw [harg]

/-- Consuming a whole valid wide stream from a clean scanner state transcodes
it and leaves the scanner at the remaining suffix. -/
theorem utf8Scan_consume {cps : List Nat} (hv : ∀ cp ∈ cps, ValidScalar cp)
    {cap : Nat} {acc : List Nat} (hcap : acc.length + (utf8Of cps).length ≤ cap)
    (t : List Nat) :
    utf8Scan cap acc none (utf16Of cps ++ t) =
      utf8Scan cap (acc ++ utf8Of cps) none t := by
  induction cps generalizing acc with
  | nil => simp
  | cons cp rest ih =>
    have hcp : ValidScalar cp := hv cp (by simp)
    rw [utf16Of_cons, List.append_assoc, utf8Scan_step hcp]
    have hfit : acc.length + (encodeUtf8 cp).length ≤ cap := by
      simp only [utf8Of_cons, List.length_append] at hcap
      omega
    rw [if_pos hfit, ih (fun c hc => hv c (by simp [hc]))
      (by simp only [utf8Of_cons, List.length_append] at hcap ⊢; omega)]
    simp [utf8Of_cons]

/-- Running the wide-to-narrow scan over one valid wide stream with
sufficient capacity produces its full UTF-8 image. -/
theorem utf8Scan_run {cps : List Nat} (hv : ∀ cp ∈ cps, ValidScalar cp)
    {cap : Nat} {acc : List Nat} (hcap : acc.length + (utf8Of cps).length ≤ cap) :
    utf8Scan cap acc none (utf16Of cps) = .ok (acc ++ utf8Of cps) := by
  have := utf8Scan_consume hv hcap []
  rw [List.append_nil] at this
  rw [this, utf8Scan_nil_none]

/-- With insufficient capacity for a nonempty valid wide stream, the scan
fails with a capacity error. -/
theorem utf8Scan_capacity {cps : List Nat} (hv : ∀ cp ∈ cps, ValidScalar cp)
    (hne : cps ≠ []) {cap : Nat} {acc : List Nat}
    (hcap : cap < acc.length + (utf8Of cps).length) :
    utf8Scan cap acc none (utf16Of cps) = .error .capacityExceeded := by
  induction cps generalizing acc with
  | nil => exact absurd rfl hne
  | cons cp rest ih =>
    have hcp : ValidScalar cp := hv cp (by simp)
    rw [utf16Of_cons, utf8Scan_step hcp]
    by_cases hfit : acc.length + (encodeUtf8 cp).length ≤ cap
    · rw [if_pos hfit]
      rcases rest with _ | ⟨c2, rest2⟩
      · exfalso
        simp only [utf8Of_cons, utf8Of_nil, List.append_nil, List.length_append] at hcap
        omega
      · exact ih (fun c hc => hv c (by simp [hc])) (by simp)
          (by simp only [utf8Of_cons, List.length_append] at hcap ⊢; omega)
    · rw [if_neg hfit]

theorem encodeUtf8_length_le_three {u : Nat} (h : u < 0x10000) :
    (encodeUtf8 u).length ≤ 3 := by
  rw [encodeUtf8]
  split_ifs <;> simp only [List.length_cons, List.length_nil] <;> omega

theorem encodeUtf8_length_four {cp : Nat} (h : 0x10000 ≤ cp) :
    (encodeUtf8 cp).length = 4 := by
  rw [encodeUtf8, if_neg (by omega), if_neg (by omega), if_neg (by omega)]
  rfl

/-- With a budget of three bytes per remaining unit (plus three for a pending
high surrogate) the wide-to-narrow scan can never fail on capacity. -/
theorem utf8Scan_no_capacity (input : List Nat) :
    ∀ cap : Nat, ∀ acc : List Nat, ∀ pendHi : Option Nat,
    (∀ u ∈ input, u < 0x10000) →
    acc.length + 3 * input.length +
      (match pendHi with | none => 0 | some _ => 3) ≤ cap →
    utf8Scan cap acc pendHi input ≠ .error .capacityExceeded := by
  induction input with
  | nil =>
    intro cap acc pendHi _ _
    cases pendHi with
    | none => rw [utf8Scan_nil_none]; simp
    | some hi => rw [utf8Scan_nil_some]; simp
  | cons u r ih =>
    intro cap acc pendHi hu hcap
    have hu16 : u < 0x10000 := hu u (by simp)
    have hrlen : (u :: r).length = r.length + 1 := rfl
    cases pendHi with
    | none =>
      have hcap' : acc.length + 3 * (r.length + 1) + 0 ≤ cap := by
        rw [← hrlen]; exact hcap
      by_cases h1 : u < 0xD800 ∨ 0xE000 ≤ u
      · rw [utf8Scan_single h1]
        have hlen : (encodeUtf8 u).length ≤ 3 := encodeUtf8_length_le_three hu16
        have hfit : acc.length + (encodeUtf8 u).length ≤ cap := by omega
        rw [if_pos hfit]
        apply ih cap (acc ++ encodeUtf8 u) none (fun x hx => hu x (by simp [hx]))
        show (acc ++ encodeUtf8 u).length + 3 * r.length + 0 ≤ cap
        rw [List.length_append]
        omega
      · by_cases h2 : u < 0xDC00
        · rw [utf8Scan_hi (by omega) h2]
          apply ih cap acc (some u) (fun x hx => hu x (by simp [hx]))
          show acc.length + 3 * r.length + 3 ≤ cap
          omega
        · rw [utf8Scan_loneLo (by omega) (by omega)]
          simp
    | some hi =>
      have hcap' : acc.length + 3 * (r.length + 1) + 3 ≤ cap := by
        rw [← hrlen]; exact hcap
      by_cases h1 : 0xDC00 ≤ u ∧ u < 0xE000
      · rw [utf8Scan_pair h1]
        have hlen : (encodeUtf8 (0x10000 + (hi - 0xD800) * 0x400 + (u - 0xDC00))).length = 4 :=
          encodeUtf8_length_four (by omega)
        have hfit : acc.length +
            (encodeUtf8 (0x10000 + (hi - 0xD800) * 0x400 + (u - 0xDC00))).length ≤ cap := by
          omega
        rw [if_pos hfit]
        apply ih cap _ none (fun x hx => hu x (by simp [hx]))
        show (acc ++ encodeUtf8 (0x10000 + (hi - 0xD800) * 0x400 + (u - 0xDC00))).length +
          3 * r.length + 0 ≤ cap
        rw [List.length_append]
        omega
      · rw [utf8Scan_pairBad h1]
        simp

/-- If the wide-to-narrow scan succeeds on a stream of 16-bit units, the
input was a well-paired UTF-16 stream of scalar values. -/
theorem utf8Scan_sound (fuel : Nat) :
    ∀ input : List Nat, input.length ≤ fuel →
    ∀ cap : Nat, ∀ acc res : List Nat, (∀ u ∈ input, u < 0x10000) →
    utf8Scan cap acc none input = .ok res →
    ∃ cps, (∀ cp ∈ cps, ValidScalar cp) ∧ input = utf16Of cps := by
  induction fuel with
  | zero =>
    intro input hlen _ _ _ _ _
    have : input = [] := List.length_eq_zero.mp (by omega)
    exact ⟨[], by simp, by simp [this]⟩
  | succ n ih =>
    intro input hlen cap acc res hu heq
    rcases input with _ | ⟨u, r⟩
    · exact ⟨[], by simp, by simp⟩
    have hu16 : u < 0x10000 := hu u (by simp)
    by_cases h1 : u < 0xD800 ∨ 0xE000 ≤ u
    · rw [utf8Scan_single h1] at heq
      by_cases hfit : acc.length + (encodeUtf8 u).length ≤ cap
      · rw [if_pos hfit] at heq
        obtain ⟨cps, hv, hrest⟩ := ih r (by simp at hlen; omega) cap _ res
          (fun x hx => hu x (by simp [hx])) heq
        refine ⟨u :: cps, ?_, ?_⟩
        · intro c hc
          rcases List.mem_cons.mp hc with hc | hc
          · subst hc
            exact ⟨by omega, by omega⟩
          · exact hv c hc
        · rw [utf16Of_cons, encodeUtf16_bmp hu16, hrest]
          rfl
      · rw [if_neg hfit] at heq
        simp at heq
    · by_cases h2 : u < 0xDC00
      · rw [utf8Scan_hi (by omega) h2] at heq
        rcases r with _ | ⟨lo, r2⟩
        · rw [utf8Scan_nil_some] at heq
          simp at heq
        by_cases h3 : 0xDC00 ≤ lo ∧ lo < 0xE000
        · rw [utf8Scan_pair h3] at heq
          by_cases hfit : acc.length +
              (encodeUtf8 (0x10000 + (u - 0xD800) * 0x400 + (lo - 0xDC00))).length ≤ cap
          · rw [if_pos hfit] at heq
            obtain ⟨cps, hv, hrest⟩ := ih r2 (by simp at hlen; omega) cap _ res
              (fun x hx => hu x (by simp [hx])) heq
            refine ⟨(0x10000 + (u - 0xD800) * 0x400 + (lo - 0xDC00)) :: cps, ?_, ?_⟩
            · intro c hc
              rcases List.mem_cons.mp hc with hc | hc
              · refine ⟨?_, ?_⟩ <;> rw [hc] <;> omega
              · exact hv c hc
            · rw [utf16Of_cons, encodeUtf16_astral (by omega), hrest]
              have e1 : 0xD800 + (0x10000 + (u - 0xD800) * 0x400 + (lo - 0xDC00) -
                  0x10000) / 0x400 = u := by omega
              have e2 : 0xDC00 + (0x10000 + (u - 0xD800) * 0x400 + (lo - 0xDC00) -
                  0x10000) % 0x400 = lo := by omega
              rw [e1, e2]
              rfl
          · rw [if_neg hfit] at heq
            simp at heq
        · rw [utf8Scan_pairBad h3] at heq
          simp at heq
      · rw [utf8Scan_loneLo (by omega) (by omega)] at heq
        simp at heq

/-- A nonempty strict prefix of a single multi-byte sequence: a lead byte
announcing `n` bytes, followed by fewer than `n - 1` continuation bytes. -/
def IncompleteTail (t : List Nat) : Prop :=
  ∃ b r n, t = b :: r ∧ utf8SeqLen b = some n ∧ t.length < n ∧ ∀ x ∈ r, IsCont x

/-- An input that is entirely one incomplete multi-byte sequence is reported
back as a truncation of the whole input length, with nothing written. -/
theorem utf16Scan_incomplete {t : List Nat} (h : IncompleteTail t) (cap : Nat)
    (acc : List Nat) :
    utf16Scan cap acc [] 0 t = .ok (acc, t.length) := by
  obtain ⟨b, r, n, ht, hseq, hlt, hcont⟩ := h
  subst ht
  simp only [List.length_cons] at hlt
  rw [utf8SeqLen] at hseq
  split_ifs at hseq with hb1 hb2 hb3 hb4 hb5
  · simp only [Option.some.injEq] at hseq
    omega
  · simp only [Option.some.injEq] at hseq
    subst hseq
    have hr : r = [] := by
      rcases r with _ | ⟨x, r'⟩
      · rfl
      · simp only [List.length_cons] at hlt
        omega
    subst hr
    rw [utf16Scan_lead2 (by omega) hb3, utf16Scan_nil]
  · simp only [Option.some.injEq] at hseq
    subst hseq
    rcases r with _ | ⟨x, r'⟩
    · rw [utf16Scan_lead3 (by omega) hb4, utf16Scan_nil]
    · have hx : IsCont x := hcont x (by simp)
      have hr' : r' = [] := by
        rcases r' with _ | ⟨y, r''⟩
        · rfl
        · simp only [List.length_cons] at hlt
          omega
      subst hr'
      rw [utf16Scan_lead3 (by omega) hb4,
        utf16Scan_contMid (by omega) hx (by simp), utf16Scan_nil]
      rfl
  · simp only [Option.some.injEq] at hseq
    subst hseq
    rcases r with _ | ⟨x, r'⟩
    · rw [utf16Scan_lead4 (by omega) hb5, utf16Scan_nil]
    · have hx : IsCont x := hcont x (by simp)
      rcases r' with _ | ⟨y, r''⟩
      · rw [utf16Scan_lead4 (by omega) hb5,
          utf16Scan_contMid (by omega) hx (by simp), utf16Scan_nil]
        rfl
      · have hy : IsCont y := hcont y (by simp)
        have hr'' : r'' = [] := by
          rcases r'' with _ | ⟨z, r3⟩
          · rfl
          · simp only [List.length_cons] at hlt
            omega
        subst hr''
        rw [utf16Scan_lead4 (by omega) hb5,
          utf16Scan_contMid (by omega) hx (by simp),
          utf16Scan_contMid (by omega) hy (by simp), utf16Scan_nil]
        rfl

/-- Split a code-point list at byte offset `i` of its UTF-8 encoding: the
code points wholly before the offset, the number of bytes the offset reaches
into the next encoded sequence, and the remaining code points. -/
def splitCps : List Nat → Nat → List Nat × Nat × List Nat
  | [], i => ([], i, [])
  | cp :: rest, i =>
    if (encodeUtf8 cp).length ≤ i then
      let r := splitCps rest (i - (encodeUtf8 cp).length)
      (cp :: r.1, r.2.1, r.2.2)
    else ([], i, cp :: rest)

theorem splitCps_spec (cps : List Nat) (i : Nat) (hi : i ≤ (utf8Of cps).length) :
    cps = (splitCps cps i).1 ++ (splitCps cps i).2.2 ∧
    i = (utf8Of (splitCps cps i).1).length + (splitCps cps i).2.1 ∧
    ((splitCps cps i).2.2 = [] → (splitCps cps i).2.1 = 0) ∧
    (∀ d c2', (splitCps cps i).2.2 = d :: c2' →
      (splitCps cps i).2.1 < (encodeUtf8 d).length) := by
  induction cps generalizing i with
  | nil =>
    rw [splitCps]
    simp only [utf8Of_nil, List.length_nil] at hi
    refine ⟨by simp, by simp, fun _ => ?_, fun d c2' h => by simp at h⟩
    show i = 0
    omega
  | cons cp rest ih =>
    rw [splitCps]
    by_cases hle : (encodeUtf8 cp).length ≤ i
    · rw [if_pos hle]
      have hrec := ih (i - (encodeUtf8 cp).length)
        (by simp only [utf8Of_cons, List.length_append] at hi; omega)
      obtain ⟨h1, h2, h3, h4⟩ := hrec
      refine ⟨?_, ?_, ?_, ?_⟩
      · simp only [List.cons_append]
        exact congrArg (cp :: ·) h1
      · simp only [utf8Of_cons, List.length_append]
        omega
      · exact h3
      · exact h4
    · rw [if_neg hle]
      refine ⟨by simp, by simp, fun h => by simp at h, ?_⟩
      intro d c2' h
      simp only [List.cons.injEq] at h
      obtain ⟨hd, _⟩ := h
      subst hd
      show i < (encodeUtf8 cp).length
      omega

/-- Destructured form of `splitCps_spec`. -/
theorem splitCps_eq (cps : List Nat) (i : Nat) (hi : i ≤ (utf8Of cps).length) :
    ∃ c1 T c2, splitCps cps i = (c1, T, c2) ∧ cps = c1 ++ c2 ∧
      i = (utf8Of c1).length + T ∧ (c2 = [] → T = 0) ∧
      (∀ d c2', c2 = d :: c2' → T < (encodeUtf8 d).length) := by
  obtain ⟨h1, h2, h3, h4⟩ := splitCps_spec cps i hi
  exact ⟨(splitCps cps i).1, (splitCps cps i).2.1, (splitCps cps i).2.2, rfl,
    h1, h2, h3, h4⟩

/-- Converting a prefix of a valid stream produces the UTF-16 units of the
code points wholly inside the prefix, and the dangling bytes of the torn
sequence as the truncation count. -/
theorem utf16Scan_convert_front {cps : List Nat} (hv : ∀ cp ∈ cps, ValidScalar cp)
    (i : Nat) (hi : i ≤ (utf8Of cps).length) {cap : Nat}
    (hcap : (utf16Of (splitCps cps i).1).length ≤ cap) :
    utf16Scan cap [] [] 0 ((utf8Of cps).take i) =
      .ok (utf16Of (splitCps cps i).1, (splitCps cps i).2.1) := by
  obtain ⟨c1, T, c2, hsc, h1, h2, h3, h4⟩ := splitCps_eq cps i hi
  rw [hsc] at hcap
  rw [hsc]
  show utf16Scan cap [] [] 0 ((utf8Of cps).take i) = .ok (utf16Of c1, T)
  have hcap' : (utf16Of c1).length ≤ cap := hcap
  have hsplit : utf8Of cps = utf8Of c1 ++ utf8Of c2 := by
    rw [← utf8Of_append, ← h1]
  have htake : (utf8Of cps).take i = utf8Of c1 ++ (utf8Of c2).take T := by
    rw [hsplit, h2]
    exact List.take_append _
  rw [htake]
  have hv1 : ∀ cp ∈ c1, ValidScalar cp := by
    intro c hc
    exact hv c (h1 ▸ List.mem_append_left _ hc)
  rw [utf16Scan_consume hv1 (by simpa using hcap')]
  simp only [List.nil_append]
  rcases hc2 : c2 with _ | ⟨d, c2'⟩
  · rw [h3 hc2, List.take_zero, utf16Scan_nil]
    rfl
  · have hd : ValidScalar d := hv d (by
      rw [h1, hc2]
      exact List.mem_append_right _ (by simp))
    have hlt : T < (encodeUtf8 d).length := h4 d c2' hc2
    rw [utf8Of_cons, List.take_append_of_le_length (by omega)]
    exact utf16Scan_trunc hd.1 hlt cap _

/-- C1: chunk-invariance of the chunked narrow-to-wide conversion.  For a
valid narrow stream split at any byte offset, converting chunk 1 yields a
truncation count `T`; prepending the last `T` bytes of chunk 1 to chunk 2 and
converting yields, concatenated after chunk 1's output, exactly the output of
converting the unsplit stream in one call (all with sufficient capacity). -/
theorem to_utf16_chunk_invariance (s : List Nat) (hs : ValidNarrow s) (i : Nat)
    (hi : i ≤ s.length) :
    ∃ w1 T w2,
      to_utf16_array s.length (s.take i) = .ok (w1, T) ∧ T ≤ i ∧
      to_utf16_array s.length ((s.take i).drop (i - T) ++ s.drop i) = .ok (w2, 0) ∧
      to_utf16_array s.length s = .ok (w1 ++ w2, 0) := by
  obtain ⟨cps, hv, rfl⟩ := hs
  obtain ⟨c1, T, c2, hsc, h1, h2, h3, h4⟩ := splitCps_eq cps i hi
  have hsplit : utf8Of cps = utf8Of c1 ++ utf8Of c2 := by
    rw [← utf8Of_append, ← h1]
  have hv1 : ∀ cp ∈ c1, ValidScalar cp := by
    intro c hc
    exact hv c (h1 ▸ List.mem_append_left _ hc)
  have hv2 : ∀ cp ∈ c2, ValidScalar cp := by
    intro c hc
    exact hv c (h1 ▸ List.mem_append_right _ hc)
  have hlen1 : (utf8Of c1).length ≤ (utf8Of cps).length := by
    rw [hsplit, List.length_append]
    omega
  have hlen2 : (utf8Of c2).length ≤ (utf8Of cps).length := by
    rw [hsplit, List.length_append]
    omega
  refine ⟨utf16Of c1, T, utf16Of c2, ?_, by omega, ?_, ?_⟩
  · have := @utf16Scan_convert_front cps hv i hi ((utf8Of cps).length)
      (by rw [hsc]; exact le_trans (utf16Of_length_le _) hlen1)
    rw [hsc] at this
    exact this
  · have htake : (utf8Of cps).take i = utf8Of c1 ++ (utf8Of c2).take T := by
      rw [hsplit, h2]
      exact List.take_append _
    have hdrop1 : ((utf8Of cps).take i).drop (i - T) = (utf8Of c2).take T := by
      rw [htake, show i - T = (utf8Of c1).length + 0 by omega, List.drop_append]
      rfl
    have hdrop2 : (utf8Of cps).drop i = (utf8Of c2).drop T := by
      rw [hsplit, h2, List.drop_append]
    rw [hdrop1, hdrop2, List.take_append_drop]
    have := @utf16Scan_run c2 hv2 ((utf8Of cps).length) []
      (by simpa using le_trans (utf16Of_length_le _) hlen2)
    rw [show to_utf16_array (utf8Of cps).length (utf8Of c2) =
      utf16Scan (utf8Of cps).length [] [] 0 (utf8Of c2) from rfl, this]
    simp
  · have := @utf16Scan_run cps hv ((utf8Of cps).length) []
      (by simpa using utf16Of_length_le cps)
    rw [show to_utf16_array (utf8Of cps).length (utf8Of cps) =
      utf16Scan (utf8Of cps).length [] [] 0 (utf8Of cps) from rfl, this]
    rw [h1, utf16Of_append]
    simp

/-- Whole-string narrow-to-wide conversion of a valid stream succeeds with
its full UTF-16 image. -/
theorem to_utf16_string_valid {cps : List Nat} (hv : ∀ cp ∈ cps, ValidScalar cp) :
    to_utf16_string (utf8Of cps) = .ok (utf16Of cps) := by
  have hrun : to_utf16_array (utf8Of cps).length (utf8Of cps) =
      .ok (utf16Of cps, 0) := by
    show utf16Scan (utf8Of cps).length [] [] 0 (utf8Of cps) = _
    rw [utf16Scan_run hv (by simpa using utf16Of_length_le cps)]
    simp
  rw [to_utf16_string, hrun]

/-- Whole-string wide-to-narrow conversion of a valid stream succeeds with
its full UTF-8 image. -/
theorem to_utf8_string_valid {cps : List Nat} (hv : ∀ cp ∈ cps, ValidScalar cp) :
    to_utf8_string (utf16Of cps) = .ok (utf8Of cps) := by
  show utf8Scan (3 * (utf16Of cps).length) [] none (utf16Of cps) = _
  rw [utf8Scan_run hv (by simpa using utf8Of_length_le cps)]
  simp

/-- C2: the truncation count of the chunked narrow-to-wide conversion is
always in [0,3]; an empty input yields 0 written and 0 truncated; an input
that is entirely a single incomplete multi-byte sequence yields the whole
input length as truncated and 0 written. -/
theorem to_utf16_truncation_bound :
    (∀ cap : Nat, ∀ inp w : List Nat, ∀ T : Nat,
      to_utf16_array cap inp = .ok (w, T) → T ≤ 3) ∧
    (∀ cap : Nat, to_utf16_array cap [] = .ok ([], 0)) ∧
    (∀ cap : Nat, ∀ t : List Nat, IncompleteTail t →
      to_utf16_array cap t = .ok ([], t.length)) := by
  refine ⟨?_, ?_, ?_⟩
  · intro cap inp w T h
    exact utf16Scan_trunc_le_three inp cap [] [] 0 w T (Or.inr ⟨rfl, rfl⟩)
      (by omega) h
  · intro cap
    rfl
  · intro cap t ht
    exact utf16Scan_incomplete ht cap []

theorem to_utf16_truncation_bound_witness :
    to_utf16_array 1 [0x61] = .ok ([0x61], 0) ∧ (0 : Nat) ≤ 3 ∧
    to_utf16_array 0 [] = .ok ([], 0) ∧
    to_utf16_array 2 [0xE2, 0x82] = .ok ([], 2) := by
  refine ⟨rfl, ?_, to_utf16_truncation_bound.2.1 0, ?_⟩
  · exact to_utf16_truncation_bound.1 1 [0x61] [0x61] 0 rfl
  · exact to_utf16_truncation_bound.2.2 2 [0xE2, 0x82]
      ⟨0xE2, [0x82], 3, rfl, rfl, by simp, by intro x hx; simp at hx; subst hx; exact ⟨by omega, by omega⟩⟩

/-- C3: round-trip. Converting a valid narrow string to wide and back yields
the original; symmetrically for a valid wide string. -/
theorem to_utf_round_trip :
    (∀ s : List Nat, ValidNarrow s →
      ∃ w, to_utf16_string s = .ok w ∧ to_utf8_string w = .ok s) ∧
    (∀ w : List Nat, ValidWide w →
      ∃ s, to_utf8_string w = .ok s ∧ to_utf16_string s = .ok w) := by
  constructor
  · intro s hs
    obtain ⟨cps, hv, rfl⟩ := hs
    exact ⟨utf16Of cps, to_utf16_string_valid hv, to_utf8_string_valid hv⟩
  · intro w hw
    obtain ⟨cps, hv, rfl⟩ := hw
    exact ⟨utf8Of cps, to_utf8_string_valid hv, to_utf16_string_valid hv⟩

theorem to_utf_round_trip_witness :
    (∃ w, to_utf16_string [0xE2, 0x82, 0xAC] = .ok w ∧
      to_utf8_string w = .ok [0xE2, 0x82, 0xAC]) ∧
    (∃ s, to_utf8_string [0xD83D, 0xDE00] = .ok s ∧
      to_utf16_string s = .ok [0xD83D, 0xDE00]) := by
  constructor
  · exact to_utf_round_trip.1 [0xE2, 0x82, 0xAC] ⟨[0x20AC], by decide, by decide⟩
  · exact to_utf_round_trip.2 [0xD83D, 0xDE00] ⟨[0x1F600], by decide, by decide⟩

/-- The narrow-to-wide scan never accumulates output beyond the declared
capacity. -/
theorem utf16Scan_write_le (input : List Nat) :
    ∀ cap : Nat, ∀ acc pend : List Nat, ∀ need : Nat, ∀ w : List Nat, ∀ T : Nat,
    acc.length ≤ cap → utf16Scan cap acc pend need input = .ok (w, T) →
    w.length ≤ cap := by
  induction input with
  | nil =>
    intro cap acc pend need w T hacc heq
    rw [utf16Scan_nil] at heq
    simp only [Except.ok.injEq, Prod.mk.injEq] at heq
    obtain ⟨hw, _⟩ := heq
    subst hw
    exact hacc
  | cons b r ih =>
    intro cap acc pend need w T hacc heq
    by_cases hn : need = 0
    · subst hn
      rw [utf16Scan] at heq
      rw [if_pos rfl] at heq
      by_cases hb1 : b < 0x80
      · rw [if_pos hb1] at heq
        by_cases hfit : acc.length + 1 ≤ cap
        · rw [if_pos hfit] at heq
          exact ih _ _ _ _ _ _ (by simp; omega) heq
        · rw [if_neg hfit] at heq
          simp at heq
      · rw [if_neg hb1] at heq
        by_cases hb2 : b < 0xC0
        · rw [if_pos hb2] at heq
          simp at heq
        · rw [if_neg hb2] at heq
          by_cases hb3 : b < 0xE0
          · rw [if_pos hb3] at heq
            exact ih _ _ _ _ _ _ hacc heq
          · rw [if_neg hb3] at heq
            by_cases hb4 : b < 0xF0
            · rw [if_pos hb4] at heq
              exact ih _ _ _ _ _ _ hacc heq
            · rw [if_neg hb4] at heq
              by_cases hb5 : b < 0xF8
              · rw [if_pos hb5] at heq
                exact ih _ _ _ _ _ _ hacc heq
              · rw [if_neg hb5] at heq
                simp at heq
    · by_cases hc : IsCont b
      · by_cases hl : pend.length + 1 = need
        · rw [utf16Scan_contFin hn hc hl] at heq
          by_cases hfit :
              acc.length + (encodeUtf16 (decodeSeq (pend ++ [b]))).length ≤ cap
          · rw [if_pos hfit] at heq
            exact ih _ _ _ _ _ _ (by simp; omega) heq
          · rw [if_neg hfit] at heq
            simp at heq
        · rw [utf16Scan_contMid hn hc hl] at heq
          exact ih _ _ _ _ _ _ hacc heq
      · rw [utf16Scan_contBad hn hc] at heq
        simp at heq

/-- The wide-to-narrow scan never accumulates output beyond the declared
capacity. -/
theorem utf8Scan_write_le (input : List Nat) :
    ∀ cap : Nat, ∀ acc : List Nat, ∀ pendHi : Option Nat, ∀ w : List Nat,
    acc.length ≤ cap → utf8Scan cap acc pendHi input = .ok w →
    w.length ≤ cap := by
  induction input with
  | nil =>
    intro cap acc pendHi w hacc heq
    cases pendHi with
    | none =>
      rw [utf8Scan_nil_none] at heq
      simp only [Except.ok.injEq] at heq
      subst heq
      exact hacc
    | some hi =>
      rw [utf8Scan_nil_some] at heq
      simp at heq
  | cons u r ih =>
    intro cap acc pendHi w hacc heq
    cases pendHi with
    | none =>
      by_cases h1 : u < 0xD800 ∨ 0xE000 ≤ u
      · rw [utf8Scan_single h1] at heq
        by_cases hfit : acc.length + (encodeUtf8 u).length ≤ cap
        · rw [if_pos hfit] at heq
          exact ih _ _ _ _ (by simp; omega) heq
        · rw [if_neg hfit] at heq
          simp at heq
      · by_cases h2 : u < 0xDC00
        · rw [utf8Scan_hi (by omega) h2] at heq
          exact ih _ _ _ _ hacc heq
        · rw [utf8Scan_loneLo (by omega) (by omega)] at heq
          simp at heq
    | some hi =>
      by_cases h1 : 0xDC00 ≤ u ∧ u < 0xE000
      · rw [utf8Scan_pair h1] at heq
        by_cases hfit : acc.length +
            (encodeUtf8 (0x10000 + (hi - 0xD800) * 0x400 + (u - 0xDC00))).length ≤ cap
        · rw [if_pos hfit] at heq
          exact ih _ _ _ _ (by simp; omega) heq
        · rw [if_neg hfit] at heq
          simp at heq
      · rw [utf8Scan_pairBad h1] at heq
        simp at heq

theorem utf16Of_length_pos {cps : List Nat} (h : cps ≠ []) :
    0 < (utf16Of cps).length := by
  rcases cps with _ | ⟨c, rest⟩
  · exact absurd rfl h
  · rw [utf16Of_cons, List.length_append]
    have := encodeUtf16_length_pos c
    omega

theorem utf8Of_length_pos {cps : List Nat} (h : cps ≠ []) :
    0 < (utf8Of cps).length := by
  rcases cps with _ | ⟨c, rest⟩
  · exact absurd rfl h
  · rw [utf8Of_cons, List.length_append]
    have := encodeUtf8_length_pos c
    omega

/-- C4: bounded-buffer behavior of both chunked conversions.  Output is never
longer than the declared capacity; for a valid nonempty input, converting
into a buffer exactly the size of the correct result succeeds, and a buffer
one unit smaller fails with a capacity error. -/
theorem bounded_capacity_behavior :
    (∀ cap : Nat, ∀ inp w : List Nat, ∀ T : Nat,
      to_utf16_array cap inp = .ok (w, T) → w.length ≤ cap) ∧
    (∀ cap : Nat, ∀ inp w : List Nat,
      to_utf8_array cap inp = .ok w → w.length ≤ cap) ∧
    (∀ s : List Nat, ValidNarrow s → s ≠ [] →
      ∃ w, to_utf16_array s.length s = .ok (w, 0) ∧
        to_utf16_array w.length s = .ok (w, 0) ∧
        to_utf16_array (w.length - 1) s = .error .capacityExceeded) ∧
    (∀ ww : List Nat, ValidWide ww → ww ≠ [] →
      ∃ s, to_utf8_array (3 * ww.length) ww = .ok s ∧
        to_utf8_array s.length ww = .ok s ∧
        to_utf8_array (s.length - 1) ww = .error .capacityExceeded) := by
  refine ⟨?_, ?_, ?_, ?_⟩
  · intro cap inp w T h
    exact utf16Scan_write_le inp cap [] [] 0 w T (by simp) h
  · intro cap inp w h
    exact utf8Scan_write_le inp cap [] none w (by simp) h
  · intro s hs hne
    obtain ⟨cps, hv, rfl⟩ := hs
    have hcne : cps ≠ [] := by
      rintro rfl
      exact hne rfl
    have hpos : 0 < (utf16Of cps).length := utf16Of_length_pos hcne
    refine ⟨utf16Of cps, ?_, ?_, ?_⟩
    · show utf16Scan (utf8Of cps).length [] [] 0 (utf8Of cps) = _
      rw [utf16Scan_run hv (by simpa using utf16Of_length_le cps)]
      simp
    · show utf16Scan (utf16Of cps).length [] [] 0 (utf8Of cps) = _
      rw [utf16Scan_run hv (by simp)]
      simp
    · show utf16Scan ((utf16Of cps).length - 1) [] [] 0 (utf8Of cps) = _
      exact utf16Scan_capacity hv hcne (by simp; omega)
  · intro ww hw hne
    obtain ⟨cps, hv, rfl⟩ := hw
    have hcne : cps ≠ [] := by
      rintro rfl
      exact hne rfl
    have hpos : 0 < (utf8Of cps).length := utf8Of_length_pos hcne
    refine ⟨utf8Of cps, ?_, ?_, ?_⟩
    · show utf8Scan (3 * (utf16Of cps).length) [] none (utf16Of cps) = _
      rw [utf8Scan_run hv (by simpa using utf8Of_length_le cps)]
      simp
    · show utf8Scan (utf8Of cps).length [] none (utf16Of cps) = _
      rw [utf8Scan_run hv (by simp)]
      simp
    · show utf8Scan ((utf8Of cps).length - 1) [] none (utf16Of cps) = _
      exact utf8Scan_capacity hv hcne (by simp; omega)

theorem bounded_capacity_behavior_witness :
    List.length [0x61] ≤ 1 ∧ List.length [0xE2, 0x82, 0xAC] ≤ 3 ∧
    (∃ w, to_utf16_array (List.length [0xE2, 0x82, 0xAC]) [0xE2, 0x82, 0xAC] = .ok (w, 0) ∧
      to_utf16_array w.length [0xE2, 0x82, 0xAC] = .ok (w, 0) ∧
      to_utf16_array (w.length - 1) [0xE2, 0x82, 0xAC] = .error .capacityExceeded) ∧
    (∃ s, to_utf8_array (3 * List.length [0x20AC]) [0x20AC] = .ok s ∧
      to_utf8_array s.length [0x20AC] = .ok s ∧
      to_utf8_array (s.length - 1) [0x20AC] = .error .capacityExceeded) := by
  refine ⟨?_, ?_, ?_, ?_⟩
  · exact bounded_capacity_behavior.1 1 [0x61] [0x61] 0 rfl
  · exact bounded_capacity_behavior.2.1 3 [0x20AC] [0xE2, 0x82, 0xAC] rfl
  · exact bounded_capacity_behavior.2.2.1 [0xE2, 0x82, 0xAC]
      ⟨[0x20AC], by decide, by decide⟩ (by decide)
  · exact bounded_capacity_behavior.2.2.2 [0x20AC]
      ⟨[0x20AC], by decide, by decide⟩ (by decide)

theorem not_validWide_lone_surrogate : ¬ ValidWide [0xD800] := by
  rintro ⟨cps, hv, heq⟩
  rcases cps with _ | ⟨c, rest⟩
  · simp at heq
  · rw [utf16Of_cons] at heq
    rcases Nat.lt_or_ge c 0x10000 with hc | hc
    · rw [encodeUtf16_bmp hc] at heq
      simp only [List.cons_append, List.nil_append, List.cons.injEq] at heq
      obtain ⟨hc8, _⟩ := heq
      have := (hv c (by simp)).2
      omega
    · rw [encodeUtf16_astral hc] at heq
      simp only [List.cons_append, List.nil_append, List.cons.injEq] at heq
      obtain ⟨_, h2⟩ := heq
      simp at h2

/-- C5: whole-string conversions fail atomically on malformed input.  A valid
stream with an incomplete trailing sequence is a malformed-sequence error for
the whole narrow-to-wide operation; a wide stream of 16-bit units that is not
well-paired UTF-16 is a malformed-sequence error for the whole wide-to-narrow
operation; and a successful whole-string narrow-to-wide conversion always
comes from a chunked conversion with truncation count 0 (whole-string
conversions never produce a truncation count). -/
theorem whole_string_malformed :
    (∀ s t : List Nat, ValidNarrow s → IncompleteTail t →
      to_utf16_string (s ++ t) = .error .malformedSequence) ∧
    (∀ w : List Nat, (∀ u ∈ w, u < 0x10000) → ¬ ValidWide w →
      to_utf8_string w = .error .malformedSequence) ∧
    (∀ s w : List Nat, to_utf16_string s = .ok w →
      to_utf16_array s.length s = .ok (w, 0)) := by
  refine ⟨?_, ?_, ?_⟩
  · intro s t hs ht
    obtain ⟨cps, hv, rfl⟩ := hs
    obtain ⟨b, r, n, htt, _, _, _⟩ := id ht
    have hlen : t.length = r.length + 1 := by rw [htt]; rfl
    have hcap : (utf16Of cps).length ≤ (utf8Of cps ++ t).length := by
      rw [List.length_append]
      have := utf16Of_length_le cps
      omega
    have hconv : to_utf16_array (utf8Of cps ++ t).length (utf8Of cps ++ t) =
        .ok (utf16Of cps, r.length + 1) := by
      show utf16Scan (utf8Of cps ++ t).length [] [] 0 (utf8Of cps ++ t) = _
      rw [utf16Scan_consume hv (by simpa using hcap)]
      simp only [List.nil_append]
      rw [utf16Scan_incomplete ht, hlen]
    rw [to_utf16_string, hconv]
    rfl
  · intro w hu hnv
    rcases heq : to_utf8_string w with e | res
    · cases e with
      | capacityExceeded =>
        exfalso
        apply utf8Scan_no_capacity w (3 * w.length) [] none hu ?_ heq
        show List.length ([] : List Nat) + 3 * w.length + 0 ≤ 3 * w.length
        simp
      | malformedSequence => rfl
    · exfalso
      obtain ⟨cps, hval, hweq⟩ := utf8Scan_sound w.length w (le_refl _)
        (3 * w.length) [] res hu heq
      exact hnv ⟨cps, hval, hweq⟩
  · intro s w h
    rw [to_utf16_string] at h
    rcases hres : to_utf16_array s.length s with e | p
    · rw [hres] at h
      simp at h
    · obtain ⟨w', T⟩ := p
      rw [hres] at h
      cases T with
      | zero =>
        simp only [Except.ok.injEq] at h
        subst h
        rfl
      | succ n =>
        simp at h

theorem whole_string_malformed_witness :
    to_utf16_string ([0x61] ++ [0xE2, 0x82]) = .error .malformedSequence ∧
    to_utf8_string [0xD800] = .error .malformedSequence ∧
    to_utf16_array (List.length [0x61]) [0x61] = .ok ([0x61], 0) := by
  refine ⟨?_, ?_, ?_⟩
  · exact whole_string_malformed.1 [0x61] [0xE2, 0x82]
      ⟨[0x61], by decide, by decide⟩
      ⟨0xE2, [0x82], 3, rfl, rfl, by simp, by
        intro x hx
        simp at hx
        subst hx
        exact ⟨by omega, by omega⟩⟩
  · exact whole_string_malformed.2.1 [0xD800] (by decide) not_validWide_lone_surrogate
  · exact whole_string_malformed.2.2 [0x61] [0x61] rfl

theorem to_utf16_chunk_invariance_witness :
    ∃ w1 T w2,
      to_utf16_array (List.length [0xE2, 0x82, 0xAC]) ([0xE2, 0x82, 0xAC].take 2) =
        .ok (w1, T) ∧ T ≤ 2 ∧
      to_utf16_array (List.length [0xE2, 0x82, 0xAC])
        (([0xE2, 0x82, 0xAC].take 2).drop (2 - T) ++ [0xE2, 0x82, 0xAC].drop 2) =
        .ok (w2, 0) ∧
      to_utf16_array (List.length [0xE2, 0x82, 0xAC]) [0xE2, 0x82, 0xAC] =
        .ok (w1 ++ w2, 0) :=
  to_utf16_chunk_invariance [0xE2, 0x82, 0xAC] ⟨[0x20AC], by decide, by decide⟩ 2
    (by decide)

/-- Modelled from the spec: entry-by-entry conversion loop of
`allocate_environment` (declared in unicode.hpp, body not in the excerpt;
spec section 4.4).  `live` counts live heap allocations: each successfully
converted entry is one allocation; on a failed entry every allocation made by
this loop is released on the way out (`l - 1` at each level). -/
def allocEntries (live : Nat) : List (List Nat) → Option (List (List Nat)) × Nat
  | [] => (some [], live)
  | w :: rest =>
    match to_utf8_string w with
    | .ok s =>
      match allocEntries (live + 1) rest with
      | (some out, l) => (some (s :: out), l)
      | (none, l) => (none, l - 1)
    | .error _ => (none, live)

/-- Modelled from the spec: `allocate_environment` (both the null-terminated
environment-block and the counted argument-vector overloads, which coincide
in the list model).  Allocates the array itself (one allocation), converts
every entry with the whole-string wide-to-narrow conversion, and on any
failure releases everything it allocated before surfacing the failure.
Returns the converted entries (or `none`) and the updated live-allocation
count. -/
def allocate_environment (env : List (List Nat)) (live : Nat) :
    Option (List (List Nat)) × Nat :=
  match allocEntries (live + 1) env with
  | (some out, l) => (some out, l)
  | (none, l) => (none, l - 1)

theorem allocEntries_fail (env : List (List Nat)) :
    ∀ live : Nat, (∃ w, w ∈ env ∧ ∃ e, to_utf8_string w = .error e) →
    allocEntries live env = (none, live) := by
  induction env with
  | nil =>
    intro live h
    obtain ⟨w, hw, _⟩ := h
    simp at hw
  | cons v rest ih =>
    intro live h
    rw [allocEntries]
    rcases hv : to_utf8_string v with e | s
    · rfl
    · obtain ⟨w, hw, e, hwe⟩ := h
      rcases List.mem_cons.mp hw with hweq | hwmem
      · subst hweq
        rw [hv] at hwe
        simp at hwe
      · rw [ih (live + 1) ⟨w, hwmem, e, hwe⟩]
        simp

theorem allocEntries_ok (env : List (List Nat)) :
    ∀ live : Nat, ∀ res : List (List Nat), ∀ l : Nat,
    allocEntries live env = (some res, l) →
    List.Forall₂ (fun w s => to_utf8_string w = .ok s) env res ∧
    l = live + env.length := by
  induction env with
  | nil =>
    intro live res l h
    rw [allocEntries] at h
    simp only [Prod.mk.injEq, Option.some.injEq] at h
    obtain ⟨hres, hl⟩ := h
    subst hres
    exact ⟨List.Forall₂.nil, by simp [hl]⟩
  | cons v rest ih =>
    intro live res l h
    rw [allocEntries] at h
    rcases hv : to_utf8_string v with e | s
    · rw [hv] at h
      simp at h
    · rw [hv] at h
      rcases hrec : allocEntries (live + 1) rest with ⟨o, l'⟩
      rw [hrec] at h
      cases o with
      | none => simp at h
      | some out =>
        simp only [Prod.mk.injEq, Option.some.injEq] at h
        obtain ⟨hres, hl⟩ := h
        subst hres
        subst hl
        obtain ⟨hfa, hl'⟩ := ih (live + 1) out l' hrec
        exact ⟨List.Forall₂.cons hv hfa, by simp [hl']; omega⟩

/-- C6: atomic all-or-nothing construction.  If the conversion of any single
entry fails, the whole `allocate_environment` operation fails: the caller
receives no array, and every allocation made during construction (the
partially built entries and the array itself) has been released, leaving the
live-allocation count exactly as it was. -/
theorem allocate_environment_all_or_nothing (env : List (List Nat)) (live : Nat)
    (h : ∃ w, w ∈ env ∧ ∃ e, to_utf8_string w = .error e) :
    (allocate_environment env live).1 = none ∧
    (allocate_environment env live).2 = live := by
  rw [allocate_environment, allocEntries_fail env (live + 1) h]
  simp

theorem allocate_environment_all_or_nothing_witness :
    (allocate_environment [[0xD800]] 0).1 = none ∧
    (allocate_environment [[0xD800]] 0).2 = 0 :=
  allocate_environment_all_or_nothing [[0xD800]] 0
    ⟨[0xD800], by simp, .malformedSequence, rfl⟩

/-- C7: a successful `allocate_environment` returns exactly one narrow entry
per wide entry, in order, each being the whole-string wide-to-narrow
conversion of the corresponding input entry (no trimming, case-folding or
reordering). -/
theorem allocate_environment_preserves (env : List (List Nat)) (live : Nat)
    (res : List (List Nat)) (live' : Nat)
    (h : allocate_environment env live = (some res, live')) :
    res.length = env.length ∧
    List.Forall₂ (fun w s => to_utf8_string w = .ok s) env res := by
  rw [allocate_environment] at h
  rcases hrec : allocEntries (live + 1) env with ⟨o, l⟩
  rw [hrec] at h
  cases o with
  | none => simp at h
  | some out =>
    simp only [Prod.mk.injEq, Option.some.injEq] at h
    obtain ⟨hres, _⟩ := h
    subst hres
    obtain ⟨hfa, _⟩ := allocEntries_ok env (live + 1) out l hrec
    exact ⟨hfa.length_eq.symm, hfa⟩

theorem allocate_environment_preserves_witness :
    List.length [[0x61]] = List.length [[0x61]] ∧
    List.Forall₂ (fun w s => to_utf8_string w = .ok s) [[0x61]] [[0x61]] :=
  allocate_environment_preserves [[0x61]] 0 [[0x61]] 2 rfl

/-- `std::copy(buffer.begin(), buffer.end(), out.begin())`: overwrite the
first `src.length` elements of `dst` with `src`. -/
def copyInto (src dst : List Nat) : List Nat :=
  src ++ dst.drop src.length

/-- Body of the templated `scrypt` wrapper (hash.ipp lines 29-35): calls the
variable-length scrypt primitive `prim` with the byte count `size` and copies
the resulting buffer into the wrapper's `out` parameter. -/
def scrypt_body (prim : List Nat → List Nat → Nat → Nat → Nat → Nat → List Nat)
    (size : Nat) (out data salt : List Nat) (n p r : Nat) : List Nat :=
  copyInto (prim data salt n p r size) out

/-- Caller-visible contents of the destination array after the call
`scrypt<Size>(out, data, salt, N, p, r)`.  The wrapper's parameter is
`byte_array<Size> out` - passed BY VALUE - so the callee's `std::copy` writes
into a copy that is discarded when the wrapper returns, and the caller's
array keeps its prior contents. -/
def scrypt_caller_dest (prim : List Nat → List Nat → Nat → Nat → Nat → Nat → List Nat)
    (size : Nat) (dest data salt : List Nat) (n p r : Nat) : List Nat :=
  let copy := dest
  let _written := scrypt_body prim size copy data salt n p r
  dest

/-- C8 (code bug): at a concrete input the caller's destination still holds
its old contents after the wrapper returns, even though the wrapper computed
the scrypt output - the by-value `out` parameter makes the copy invisible to
the caller. -/
theorem scrypt_out_by_value_bug :
    scrypt_caller_dest (fun _ _ _ _ _ _ => [1]) 1 [0] [] [] 0 0 0 = [0] ∧
    scrypt_body (fun _ _ _ _ _ _ => [1]) 1 [0] [] [] 0 0 0 = [1] ∧
    ([0] : List Nat) ≠ [1] :=
  ⟨rfl, rfl, by decide⟩

/-- Declaration-level embedding of unicode.hpp: the functions the header
declares for a given build configuration.  The three normalization and
lowercasing functions (lines 149-177) sit inside `#ifdef WITH_ICU`; the rest
of the interface is unconditional. -/
def unicodeDeclarations (with_icu : Bool) : List String :=
  (if with_icu then ["to_normal_nfc_form", "to_normal_nfkd_form", "to_lower"]
    else []) ++
  ["free_environment", "allocate_environment", "to_utf8", "to_utf16",
    "set_utf8_stdio", "set_utf8_stdin", "set_utf8_stdout", "set_utf8_stderr",
    "set_binary_stdin", "set_binary_stdout", "cin_stream", "cout_stream",
    "cerr_stream"]

/-- C9 (counterexample): in a build without WITH_ICU, `to_normal_nfc_form` is
not declared at all, so it cannot be called and return an empty result - the
claim's premise that the function is available without ICU fails. -/
theorem icu_unavailable_not_declared :
    ¬ ("to_normal_nfc_form" ∈ unicodeDeclarations false) := by
  decide

/-- C9 (amended): the normalization/lowercasing functions are declared only
when WITH_ICU is defined; without ICU they are conditionally compiled out and
unavailable at compile time rather than failing with an empty result. -/
theorem icu_conditional_declaration :
    ("to_normal_nfc_form" ∈ unicodeDeclarations true ∧
      "to_normal_nfc_form" ∉ unicodeDeclarations false) ∧
    ("to_normal_nfkd_form" ∈ unicodeDeclarations true ∧
      "to_normal_nfkd_form" ∉ unicodeDeclarations false) ∧
    ("to_lower" ∈ unicodeDeclarations true ∧
      "to_lower" ∉ unicodeDeclarations false) := by
  decide

/-- Process state visible to the wide-entry (MSVC) `wmain` generated by
BC_USE_LIBBITCOIN_MAIN: the current value of the global `environ` pointer and
the identities of the live heap allocations.  Pointers are abstract ids. -/
structure WMainState where
  environ : Nat
  live : List Nat
deriving DecidableEq, Repr

/-- Embedding of the `wmain` body of BC_USE_LIBBITCOIN_MAIN (unicode.hpp
lines 96-113), statement by statement.  `envId` and `argId` are the ids of
the arrays returned by the two `allocate_environment` calls; `mainFn` is
`bc::system::main`, seeing the state at the moment it is invoked (in
particular the substituted narrow `environ`). -/
def wmain_run (s0 : WMainState) (envId argId : Nat) (mainFn : WMainState → Int) :
    Int × WMainState :=
  let environment := s0.environ
  let s1 : WMainState := ⟨envId, envId :: s0.live⟩
  let s2 : WMainState := ⟨s1.environ, argId :: s1.live⟩
  let result := mainFn s2
  let s3 : WMainState := ⟨s2.environ, s2.live.erase argId⟩
  let s4 : WMainState := ⟨s3.environ, s3.live.erase s3.environ⟩
  let s5 : WMainState := ⟨environment, s4.live⟩
  (result, s5)

/-- C10: the generated entry point saves `environ`, substitutes the converted
narrow environment (main runs with `environ = envId` and both arrays live),
then frees the argument array, frees the narrow environment array, restores
`environ` to its saved value, and returns exactly what `bc::system::main`
returned - leaving the allocation set and `environ` as they were. -/
theorem wmain_frame (s0 : WMainState) (envId argId : Nat)
    (mainFn : WMainState → Int) :
    wmain_run s0 envId argId mainFn =
      (mainFn ⟨envId, argId :: envId :: s0.live⟩, ⟨s0.environ, s0.live⟩) := by
  simp [wmain_run, List.erase_cons_head]
